import Mathlib

/-!
Verification of the go-migrate-easy migration engine against its design
specification.  The Go sources (package migrations, files
src/migrations/migrations.go and the CLI in src/cmd/migrate) are shallowly
embedded below: Go strings become lists of characters, the database becomes an
explicit state record, and SQL execution is abstracted by an oracle saying
which SQL bodies execute successfully.
-/

namespace GoMigrate

/-! Decimal rendering of integers, mirroring Go fmt.Sprintf with the percent-d
verb, and decimal scanning, mirroring fmt.Sscanf with the percent-d verb. -/

/-- Decimal digit character for a value below ten. -/
def digitChar : Nat → Char
  | 0 => '0'
  | 1 => '1'
  | 2 => '2'
  | 3 => '3'
  | 4 => '4'
  | 5 => '5'
  | 6 => '6'
  | 7 => '7'
  | 8 => '8'
  | 9 => '9'
  | _ => '*'

/-- Fuel-driven loop producing the decimal digits of a natural number, most
significant digit first.  Structural recursion on the fuel keeps the
definition computable inside the kernel; any fuel above the argument
suffices. -/
def natCharsCore : Nat → Nat → List Char
  | 0, _ => []
  | fuel + 1, n =>
    if n < 10 then [digitChar n]
    else natCharsCore fuel (n / 10) ++ [digitChar (n % 10)]

/-- Decimal representation of a natural number, most significant digit first. -/
def natChars (n : Nat) : List Char := natCharsCore (n + 1) n

/-- Decimal representation of an integer (Go fmt.Sprintf percent-d). -/
def intChars (i : Int) : List Char :=
  if i < 0 then '-' :: natChars (-i).toNat else natChars i.toNat

/-- Whether a character is an ASCII decimal digit. -/
def isDigitChar (c : Char) : Bool := decide ('0' ≤ c ∧ c ≤ '9')

/-- Whitespace skipped by Go scanning verbs. -/
def isSpaceChar (c : Char) : Bool := decide (c = ' ' ∨ c = '\t' ∨ c = '\n' ∨ c = '\r')

/-- Value of a digit string, most significant digit first. -/
def digitsVal (ds : List Char) : Nat := ds.foldl (fun a c => 10 * a + (c.toNat - 48)) 0

/-- Smallest Go int64 value. -/
def int64Min : Int := -(2 ^ 63)

/-- Largest Go int64 value. -/
def int64Max : Int := 2 ^ 63 - 1

/-- Scan a digit run after an optional sign; fails when no digit is present or
the value overflows a 64-bit integer, and ignores anything after the digit
run, as Go scanning of the percent-d verb does. -/
def goParseMag (neg : Bool) (t : List Char) : Option Int :=
  let ds := t.takeWhile isDigitChar
  if ds = [] then none
  else
    let v : Int := if neg then -(digitsVal ds : Int) else (digitsVal ds : Int)
    if int64Min ≤ v ∧ v ≤ int64Max then some v else none

/-- Model of fmt.Sscanf with the percent-d verb applied to one segment: skip
leading whitespace, read an optional sign and then a nonempty digit run;
trailing characters after the digit run are left unread and do not cause an
error. -/
def goParseInt (s : List Char) : Option Int :=
  let t := s.dropWhile isSpaceChar
  if t.headD ' ' = '-' then goParseMag true t.tail
  else if t.headD ' ' = '+' then goParseMag false t.tail
  else goParseMag false t

/-! Models of the Go strings package functions used by the engine. -/

/-- Model of strings.HasSuffix. -/
def hasSuffixGo (s suf : List Char) : Bool := decide (suf <:+ s)

/-- Model of strings.TrimSuffix. -/
def trimSuffixGo (s suf : List Char) : List Char :=
  if hasSuffixGo s suf then s.take (s.length - suf.length) else s

/-- Model of strings.Split with a one-character separator. -/
def splitGo (sep : Char) : List Char → List (List Char)
  | [] => [[]]
  | c :: cs =>
    if c = sep then [] :: splitGo sep cs
    else
      match splitGo sep cs with
      | [] => [[c]]
      | p :: ps => (c :: p) :: ps

/-- Model of strings.Join with a one-character separator. -/
def joinGo (sep : Char) : List (List Char) → List Char
  | [] => []
  | [p] => p
  | p :: ps => p ++ sep :: joinGo sep ps

/-- The recognized migration file suffix. -/
def sqlSuffix : List Char := ['.', 's', 'q', 'l']

/-- The forward direction token. -/
def upChars : List Char := ['u', 'p']

/-- The reverse direction token. -/
def downChars : List Char := ['d', 'o', 'w', 'n']

/-- Failure kinds of the filename parser, named as in the specification's
error taxonomy.  In the Go code each kind is a distinct error message:
invalidFormat covers both the missing .sql extension and the fewer than
three segments message, invalidVersion is the invalid version number message,
invalidDirection the direction must be up or down message, and emptyName the
name part cannot be empty message. -/
inductive ParseError where
  | invalidFormat
  | invalidVersion
  | invalidDirection
  | emptyName
deriving DecidableEq

/-- The underscore-separated segments of a filename stem, as computed by
parseMigrationFilename. -/
def segsOf (filename : List Char) : List (List Char) :=
  splitGo '_' (trimSuffixGo filename sqlSuffix)

/-- Model of Migrator.parseMigrationFilename from src/migrations/migrations.go
(lines 516-542): check the .sql suffix, split the stem on underscores into at
least three segments, scan the first segment with the percent-d verb, require
the last segment to be the up or down token, rejoin the middle segments as the
name and require it nonempty. -/
def parseMigrationFilename (filename : List Char) :
    Except ParseError (Int × List Char × List Char) :=
  if hasSuffixGo filename sqlSuffix = false then .error .invalidFormat
  else
    let parts := segsOf filename
    if parts.length < 3 then .error .invalidFormat
    else
      match goParseInt (parts.headD []) with
      | none => .error .invalidVersion
      | some version =>
        let direction := parts.getLastD []
        if direction ≠ upChars ∧ direction ≠ downChars then .error .invalidDirection
        else
          let name := joinGo '_' ((parts.drop 1).dropLast)
          if name = [] then .error .emptyName
          else .ok (version, name, direction)

example :
    parseMigrationFilename (("001_create_users_up.sql").toList) =
      .ok (1, ("create_users").toList, ("up").toList) := by rfl

example :
    parseMigrationFilename (("-3_create_users_up.sql").toList) =
      .ok (-3, ("create_users").toList, ("up").toList) := by rfl

example :
    parseMigrationFilename (("abc_create_users_up.sql").toList) =
      .error .invalidVersion := by rfl

example :
    parseMigrationFilename (("001__up.sql").toList) = .error .emptyName := by rfl

example :
    parseMigrationFilename (("001_up.sql").toList) = .error .invalidFormat := by rfl

example :
    parseMigrationFilename (("001_create_users_invalid.sql").toList) =
      .error .invalidDirection := by rfl

/-! The data model: Migration records and the in-memory catalog. -/

/-- Model of the Migration struct: a version, a display name, and the forward
and reverse SQL bodies.  The appliedAt pointer of the Go struct is an optional
timestamp, never set by the loader. -/
structure Migration where
  version : Int
  name : List Char
  upSQL : List Char
  downSQL : List Char
  appliedAt : Option Nat := none
deriving DecidableEq

/-- Catalog order used by sort.Slice in LoadMigrations: compare versions. -/
def migLE (a b : Migration) : Prop := a.version ≤ b.version

instance : DecidableRel migLE := fun a b => inferInstanceAs (Decidable (a.version ≤ b.version))

instance : IsTotal Migration migLE := ⟨fun a b => Int.le_total a.version b.version⟩

instance : IsTrans Migration migLE := ⟨fun _ _ _ h1 h2 => Int.le_trans h1 h2⟩

/-- A directory listing: pairs of file name and file content.  Reading the
directory and the files is abstracted to this pure value; the IOError paths of
LoadMigrations are outside the scope of the claims below. -/
abbrev DirListing := List (List Char × List Char)

/-- Per-version pair of optional up and down SQL bodies, as collected in the
migrationFiles map of LoadMigrations. -/
abbrev DirPair := Option (List Char) × Option (List Char)

/-- Record a file content under its direction key, overwriting any earlier
content for the same direction (last read wins, as for a Go map assignment). -/
def setDir (e : DirPair) (direction : List Char) (content : List Char) : DirPair :=
  if direction = upChars then (some content, e.2)
  else if direction = downChars then (e.1, some content)
  else e

/-- Insert one parsed file into the version-keyed grouping. -/
def insertGroup (acc : List (Int × DirPair)) (version : Int) (direction : List Char)
    (content : List Char) : List (Int × DirPair) :=
  match acc with
  | [] => [(version, setDir (none, none) direction content)]
  | (w, e) :: rest =>
    if w = version then (w, setDir e direction content) :: rest
    else (w, e) :: insertGroup rest version direction content

/-- Loop of the first phase of LoadMigrations, carrying the grouping built so
far. -/
def groupFilesAux (acc : List (Int × DirPair)) : DirListing → List (Int × DirPair)
  | [] => acc
  | fc :: rest =>
    if hasSuffixGo fc.1 sqlSuffix then
      match parseMigrationFilename fc.1 with
      | .error _ => groupFilesAux acc rest
      | .ok (version, _, direction) => groupFilesAux (insertGroup acc version direction fc.2) rest
    else groupFilesAux acc rest

/-- First phase of LoadMigrations (lines 332-355): walk the directory listing,
keep entries with the .sql suffix that parse, and group their contents by
version under the parsed direction.  The parsed name is discarded, exactly as
the Go code discards it. -/
def groupFiles (files : DirListing) : List (Int × DirPair) :=
  groupFilesAux [] files

/-- Second phase of LoadMigrations (lines 357-365): one Migration per grouped
version.  The name is fmt.Sprintf applied to the version with the percent-d
verb, and a missing direction yields the empty string (the Go map zero
value). -/
def buildMigrations (groups : List (Int × DirPair)) : List Migration :=
  groups.map fun ve =>
    { version := ve.1
      name := intChars ve.1
      upSQL := (ve.2.1).getD []
      downSQL := (ve.2.2).getD [] }

/-- Model of Migrator.LoadMigrations (lines 326-373): append the freshly built
migrations to the catalog already held by the Migrator, then sort the whole
catalog by version.  Go map iteration order is unspecified; the model reads
the groups in first-insertion order, which the final sort makes irrelevant
for distinct versions. -/
def loadMigrations (catalog : List Migration) (files : DirListing) : List Migration :=
  List.insertionSort migLE (catalog ++ buildMigrations (groupFiles files))

/-! The dialect registry. -/

/-- Model of the dbDialect struct: dialect DDL text and positional-placeholder
formatting. -/
structure DbDialect where
  createTableSQL : String
  placeholder : Int → List Char

/-- Failure of dialect resolution. -/
inductive DialectError where
  | unsupportedDialect
deriving DecidableEq

/-- Model of getDialect (lines 268-304): a fixed three-entry table keyed by
database type.  Map lookup on distinct literal keys is written as an equality
chain.  Note the sqlite key is the string sqlite3, not sqlite. -/
def getDialect (dbType : String) : Except DialectError DbDialect :=
  if dbType = "postgres" then
    .ok
      { createTableSQL := "\n\t\t\t\t\tCREATE TABLE IF NOT EXISTS schema_migrations (\n\t\t\t\t\t\tversion INTEGER PRIMARY KEY,\n\t\t\t\t\t\tname TEXT NOT NULL,\n\t\t\t\t\t\tapplied_at TIMESTAMP WITH TIME ZONE DEFAULT CURRENT_TIMESTAMP\n\t\t\t\t\t)"
        placeholder := fun i => '$' :: intChars i }
  else if dbType = "mysql" then
    .ok
      { createTableSQL := "\n\t\t\t\t\tCREATE TABLE IF NOT EXISTS schema_migrations (\n\t\t\t\t\t\tversion INTEGER PRIMARY KEY,\n\t\t\t\t\t\tname VARCHAR(255) NOT NULL,\n\t\t\t\t\t\tapplied_at TIMESTAMP DEFAULT CURRENT_TIMESTAMP\n\t\t\t\t\t)"
        placeholder := fun _ => ['?'] }
  else if dbType = "sqlite3" then
    .ok
      { createTableSQL := "\n\t\t\t\t\tCREATE TABLE IF NOT EXISTS schema_migrations (\n\t\t\t\t\t\tversion INTEGER PRIMARY KEY,\n\t\t\t\t\t\tname TEXT NOT NULL,\n\t\t\t\t\t\tapplied_at TIMESTAMP DEFAULT CURRENT_TIMESTAMP\n\t\t\t\t\t)"
        placeholder := fun _ => ['?'] }
  else .error .unsupportedDialect

/-! The database state and the state store accessor. -/

/-- Abstract database state: the log of successfully executed migration SQL
bodies, the schema_migrations table as an association list from version to
applied-at timestamp, and a logical clock supplying strictly increasing
timestamps for time.Now at each bookkeeping insert. -/
structure DBState where
  execLog : List (List Char)
  applied : List (Int × Nat)
  clock : Nat
deriving DecidableEq

/-- Lookup in the applied table by version, mirroring both the Go map read
applied version-bracket and the SQL primary key lookup. -/
def lookupA : List (Int × Nat) → Int → Option Nat
  | [], _ => none
  | (v, t) :: rest, w => if v = w then some t else lookupA rest w

/-- Delete every row of a given version, mirroring DELETE FROM
schema_migrations WHERE version equals the parameter. -/
def eraseA (rows : List (Int × Nat)) (version : Int) : List (Int × Nat) :=
  rows.filter fun r => r.1 ≠ version

/-! The migration runner, forward direction. -/

/-- Loop body of Migrate (lines 409-444).  The pending check consults the
applied map snapshot read once before the loop (applied0).  Each pending
migration runs in its own transaction: execute the up SQL (failure rolls the
transaction back, leaving the state unchanged, and aborts the loop reporting
the version), then insert the bookkeeping row (a duplicate primary key makes
the insert fail, with the same transactional abort), then commit. -/
def migrateFrom (execOk : List Char → Bool) (applied0 : List (Int × Nat)) :
    List Migration → DBState → Except (Int × DBState) DBState
  | [], db => .ok db
  | mig :: rest, db =>
    if (lookupA applied0 mig.version).isSome then migrateFrom execOk applied0 rest db
    else if execOk mig.upSQL = false then .error (mig.version, db)
    else if (lookupA db.applied mig.version).isSome then .error (mig.version, db)
    else
      migrateFrom execOk applied0 rest
        { execLog := db.execLog ++ [mig.upSQL]
          applied := db.applied ++ [(mig.version, db.clock)]
          clock := db.clock + 1 }

/-- Outcome of Migrate. -/
inductive MigrateResult where
  | ok (db : DBState)
  | dialectError (db : DBState)
  | applyFailed (version : Int) (db : DBState)
deriving DecidableEq

/-- Model of Migrator.Migrate (lines 397-447): resolve the dialect, read the
applied set once, then run every pending catalog migration in catalog order,
each in its own transaction. -/
def runMigrate (execOk : List Char → Bool) (dbType : String) (migs : List Migration)
    (db : DBState) : MigrateResult :=
  match getDialect dbType with
  | .error _ => .dialectError db
  | .ok _ =>
    match migrateFrom execOk db.applied migs db with
    | .ok db' => .ok db'
    | .error (v, db') => .applyFailed v db'

/-! The migration runner, reverse direction.

The repository's tests (TestRollback, TestRollbackMultipleSteps) and its CLI
call a steps-taking Rollback — migrator.Rollback(1), migrator.Rollback(2),
migrator.Rollback(steps) — but the implementation present under
src/migrations/migrations.go is an older zero-argument Rollback; the
steps-taking implementation itself is not in the provided sources.  The
definitions below are therefore modelled from the specification, section 4.5,
rollback(steps). -/

/-- Rollback candidate order: most recently applied first (descending
applied-at timestamp). -/
def byTimeDesc (a b : Migration × Nat) : Prop := b.2 ≤ a.2

instance : DecidableRel byTimeDesc := fun a b => inferInstanceAs (Decidable (b.2 ≤ a.2))

instance : IsTotal (Migration × Nat) byTimeDesc := ⟨fun a b => Nat.le_total b.2 a.2⟩

instance : IsTrans (Migration × Nat) byTimeDesc := ⟨fun _ _ _ h1 h2 => Nat.le_trans h2 h1⟩

/-- Modelled from the spec: rollback step 3 — intersect the catalog with the
applied set, attach each migration its applied-at timestamp, and sort the
result descending by applied-at (most recently applied first), not by
version. -/
def rollbackCandidates (catalog : List Migration) (applied : List (Int × Nat)) :
    List (Migration × Nat) :=
  List.insertionSort byTimeDesc
    (catalog.filterMap fun m => (lookupA applied m.version).map fun t => (m, t))

/-- Modelled from the spec: rollback steps 1 and 4 — clamp steps to at least 1
and to the size of the candidate list, and select that many candidates from
the front of the descending-applied-at order. -/
def selectedRollbacks (steps : Int) (catalog : List Migration)
    (applied : List (Int × Nat)) : List (Migration × Nat) :=
  (rollbackCandidates catalog applied).take
    (min (max steps 1).toNat (rollbackCandidates catalog applied).length)

/-- Failure of rollback(steps). -/
inductive RollbackError where
  | nothingToRollback
  | stepFailed (version : Int)
deriving DecidableEq

/-- Modelled from the spec: rollback step 5 body — inside the single
transaction, for each selected migration in order execute its down SQL and
delete its applied record; any failure aborts with the offending version and
the whole batch is discarded. -/
def rollbackGo (execOk : List Char → Bool) :
    List (Migration × Nat) → DBState → Except Int DBState
  | [], db => .ok db
  | p :: rest, db =>
    if execOk p.1.downSQL = false then .error p.1.version
    else
      rollbackGo execOk rest
        { execLog := db.execLog ++ [p.1.downSQL]
          applied := eraseA db.applied p.1.version
          clock := db.clock }

/-- Modelled from the spec: rollback(steps), section 4.5 — fail with
NothingToRollback on an empty applied set, otherwise run the selected batch in
one transaction; a step failure surfaces MigrationRollbackError with the
version and leaves the database unchanged (the transaction is discarded), and
success commits the updated state. -/
def rollback (execOk : List Char → Bool) (steps : Int) (catalog : List Migration)
    (db : DBState) : Except RollbackError DBState :=
  if db.applied = [] then .error .nothingToRollback
  else
    match rollbackGo execOk (selectedRollbacks steps catalog db.applied) db with
    | .error v => .error (.stepFailed v)
    | .ok db' => .ok db'

/-! Properties of decimal rendering and scanning. -/

theorem digitChar_props (k : Nat) (h : k < 10) :
    isDigitChar (digitChar k) = true ∧ (digitChar k).toNat - 48 = k ∧
      digitChar k ≠ '_' ∧ isSpaceChar (digitChar k) = false ∧
      digitChar k ≠ '-' ∧ digitChar k ≠ '+' := by
  interval_cases k <;> decide

theorem natCharsCore_props :
    ∀ (fuel n : Nat), n < fuel →
      natCharsCore fuel n ≠ [] ∧ ∀ c ∈ natCharsCore fuel n,
        isDigitChar c = true ∧ c ≠ '_' ∧ isSpaceChar c = false ∧ c ≠ '-' ∧ c ≠ '+' := by
  intro fuel
  induction fuel with
  | zero => intro n h; omega
  | succ f ih =>
    intro n h
    simp only [natCharsCore]
    split
    next h10 =>
      refine ⟨by simp, ?_⟩
      intro c hc
      simp only [List.mem_singleton] at hc
      subst hc
      obtain ⟨h1, _, h3, h4, h5, h6⟩ := digitChar_props n h10
      exact ⟨h1, h3, h4, h5, h6⟩
    next h10 =>
      have hdiv : n / 10 < n := Nat.div_lt_self (by omega) (by omega)
      have hrec := ih (n / 10) (by omega)
      refine ⟨by simp, ?_⟩
      intro c hc
      rw [List.mem_append] at hc
      rcases hc with hc | hc
      · exact hrec.2 c hc
      · simp only [List.mem_singleton] at hc
        subst hc
        obtain ⟨h1, _, h3, h4, h5, h6⟩ := digitChar_props (n % 10) (Nat.mod_lt _ (by omega))
        exact ⟨h1, h3, h4, h5, h6⟩

theorem natChars_props (n : Nat) :
    natChars n ≠ [] ∧ ∀ c ∈ natChars n,
      isDigitChar c = true ∧ c ≠ '_' ∧ isSpaceChar c = false ∧ c ≠ '-' ∧ c ≠ '+' :=
  natCharsCore_props (n + 1) n (by omega)

theorem digitsVal_concat (ds : List Char) (c : Char) :
    digitsVal (ds ++ [c]) = 10 * digitsVal ds + (c.toNat - 48) := by
  simp [digitsVal, List.foldl_append]

theorem digitsVal_natCharsCore :
    ∀ (fuel n : Nat), n < fuel → digitsVal (natCharsCore fuel n) = n := by
  intro fuel
  induction fuel with
  | zero => intro n h; omega
  | succ f ih =>
    intro n h
    simp only [natCharsCore]
    split
    next h10 =>
      have hd := (digitChar_props n h10).2.1
      simp [digitsVal]
      omega
    next h10 =>
      have hdiv : n / 10 < n := Nat.div_lt_self (by omega) (by omega)
      rw [digitsVal_concat, ih (n / 10) (by omega),
        (digitChar_props (n % 10) (Nat.mod_lt _ (by omega))).2.1]
      omega

theorem digitsVal_natChars (n : Nat) : digitsVal (natChars n) = n :=
  digitsVal_natCharsCore (n + 1) n (by omega)

theorem goParseInt_natChars (n : Nat) (h : (n : Int) ≤ int64Max) :
    goParseInt (natChars n) = some (n : Int) := by
  obtain ⟨hne, hall⟩ := natChars_props n
  obtain ⟨c, t, hct⟩ := List.exists_cons_of_ne_nil hne
  have hc := hall c (by rw [hct]; exact List.mem_cons_self c t)
  have htake : (c :: t).takeWhile isDigitChar = c :: t :=
    List.takeWhile_eq_self_iff.mpr (by intro x hx; exact (hall x (hct ▸ hx)).1)
  have hdv : digitsVal (c :: t) = n := by rw [← hct, digitsVal_natChars]
  have hrange : int64Min ≤ (n : Int) ∧ (n : Int) ≤ int64Max := by
    refine ⟨?_, h⟩
    have : (0 : Int) ≤ (n : Int) := Int.natCast_nonneg n
    unfold int64Min
    omega
  rw [hct]
  simp only [goParseInt, List.dropWhile_cons, hc.2.2.1, Bool.false_eq_true, if_false,
    List.headD]
  rw [if_neg hc.2.2.2.1, if_neg hc.2.2.2.2]
  simp only [goParseMag, htake, hdv, Bool.false_eq_true, if_false]
  rw [if_neg (by simp), if_pos hrange]

/-! Properties of the split, join and trim models. -/

theorem splitGo_ne_nil (sep : Char) (s : List Char) : splitGo sep s ≠ [] := by
  cases s with
  | nil => simp [splitGo]
  | cons c cs =>
    simp only [splitGo]
    split
    · simp
    · split <;> simp

theorem splitGo_no_sep (sep : Char) (s : List Char) (h : ∀ c ∈ s, c ≠ sep) :
    splitGo sep s = [s] := by
  induction s with
  | nil => rfl
  | cons c cs ih =>
    simp only [splitGo, if_neg (h c (List.mem_cons_self c cs))]
    rw [ih (fun x hx => h x (List.mem_cons_of_mem c hx))]

theorem splitGo_append_sep (sep : Char) (a t : List Char) (ha : ∀ c ∈ a, c ≠ sep) :
    splitGo sep (a ++ sep :: t) = a :: splitGo sep t := by
  induction a with
  | nil => simp [splitGo]
  | cons c cs ih =>
    rw [List.cons_append]
    simp only [splitGo, if_neg (ha c (List.mem_cons_self c cs))]
    rw [ih (fun x hx => ha x (List.mem_cons_of_mem c hx))]

theorem splitGo_append_last (sep : Char) (n d : List Char) (hd : ∀ c ∈ d, c ≠ sep) :
    splitGo sep (n ++ sep :: d) = splitGo sep n ++ [d] := by
  induction n with
  | nil => simp [splitGo, splitGo_no_sep sep d hd]
  | cons c cs ih =>
    rw [List.cons_append]
    by_cases hc : c = sep
    · subst hc
      simp only [splitGo, if_pos rfl]
      rw [ih]
      simp
    · simp only [splitGo, if_neg hc]
      rw [ih]
      obtain ⟨p, ps, hps⟩ := List.exists_cons_of_ne_nil (splitGo_ne_nil sep cs)
      rw [hps]
      simp [List.cons_append]

theorem joinGo_splitGo (sep : Char) (s : List Char) : joinGo sep (splitGo sep s) = s := by
  induction s with
  | nil => rfl
  | cons c cs ih =>
    obtain ⟨p, ps, hps⟩ := List.exists_cons_of_ne_nil (splitGo_ne_nil sep cs)
    rw [hps] at ih
    by_cases hc : c = sep
    · subst hc
      simp only [splitGo, if_pos rfl, hps]
      simp only [joinGo]
      rw [ih]
      rfl
    · simp only [splitGo, if_neg hc, hps]
      cases ps with
      | nil =>
        simp only [joinGo] at ih ⊢
        rw [ih]
      | cons q qs =>
        simp only [joinGo] at ih ⊢
        rw [List.cons_append, ih]

theorem trimSuffixGo_append (x suf : List Char) : trimSuffixGo (x ++ suf) suf = x := by
  unfold trimSuffixGo hasSuffixGo
  rw [if_pos (decide_eq_true (List.suffix_append x suf))]
  rw [List.length_append]
  have hlen : x.length + suf.length - suf.length = x.length := by omega
  rw [hlen, List.take_left]

/-- Claim C4 — for every version v (within the 64-bit range of the Go int),
every nonempty name n, and every direction d in the up and down tokens, the
filename made of these three pieces joined by underscores with the .sql suffix
parses back to exactly (v, n, d). -/
theorem parse_valid_filename_roundtrip (v : Nat) (n d : List Char)
    (hv : (v : Int) ≤ int64Max) (hn : n ≠ []) (hd : d = upChars ∨ d = downChars) :
    parseMigrationFilename (natChars v ++ '_' :: (n ++ '_' :: (d ++ sqlSuffix))) =
      .ok ((v : Int), n, d) := by
  have hvchars := natChars_props v
  have hdchars : ∀ c ∈ d, c ≠ '_' := by rcases hd with h | h <;> subst h <;> decide
  have hfn : natChars v ++ '_' :: (n ++ '_' :: (d ++ sqlSuffix)) =
      (natChars v ++ '_' :: (n ++ '_' :: d)) ++ sqlSuffix := by
    simp [List.append_assoc, List.cons_append]
  rw [hfn]
  have hsuf : hasSuffixGo ((natChars v ++ '_' :: (n ++ '_' :: d)) ++ sqlSuffix) sqlSuffix
      = true := decide_eq_true (List.suffix_append _ _)
  have hsegs : segsOf ((natChars v ++ '_' :: (n ++ '_' :: d)) ++ sqlSuffix) =
      natChars v :: (splitGo '_' n ++ [d]) := by
    unfold segsOf
    rw [trimSuffixGo_append,
      splitGo_append_sep '_' _ _ (fun c hc => (hvchars.2 c hc).2.1),
      splitGo_append_last '_' n d hdchars]
  have hlen2 : ¬ (natChars v :: (splitGo '_' n ++ [d])).length < 3 := by
    have := List.length_pos.mpr (splitGo_ne_nil '_' n)
    simp only [List.length_cons, List.length_append, List.length_singleton]
    omega
  have hlast : (natChars v :: (splitGo '_' n ++ [d])).getLastD [] = d := by
    rw [← List.cons_append, List.getLastD_concat]
  have hdrop : ((natChars v :: (splitGo '_' n ++ [d])).drop 1).dropLast = splitGo '_' n := by
    simp only [List.drop_one, List.tail_cons, List.dropLast_concat]
  have hdir : ¬ (d ≠ upChars ∧ d ≠ downChars) := by
    rcases hd with h | h <;> subst h <;> simp
  simp only [parseMigrationFilename, hsuf, Bool.true_eq_false, if_false, hsegs,
    if_neg hlen2, List.headD, goParseInt_natChars v hv, if_neg hdir, hdrop,
    joinGo_splitGo, if_neg hn, hlast]

/-- Witness for C4 at the concrete filename 001_create_users_up.sql (the
version renders as 1 since natChars is the canonical decimal form). -/
theorem parse_valid_filename_roundtrip_witness :
    parseMigrationFilename (natChars 1 ++ '_' :: ((("create_users").toList) ++ '_' ::
        (upChars ++ sqlSuffix))) =
      .ok ((1 : Int), (("create_users").toList), upChars) :=
  parse_valid_filename_roundtrip 1 (("create_users").toList) upChars (by decide)
    (by decide) (Or.inl rfl)

/-- Counterexample to claim C5 — the first segment -3 does not parse as a
non-negative integer, yet the parser succeeds with the negative version -3
instead of failing with InvalidVersion, because fmt.Sscanf with the percent-d
verb accepts a sign. -/
theorem parse_negative_version_counterexample :
    parseMigrationFilename (("-3_create_users_up.sql").toList) =
      .ok ((-3 : Int), ("create_users").toList, upChars) ∧
    parseMigrationFilename (("-3_create_users_up.sql").toList) ≠
      .error .invalidVersion := by
  have h1 : parseMigrationFilename (("-3_create_users_up.sql").toList) =
      .ok ((-3 : Int), ("create_users").toList, upChars) := by rfl
  refine ⟨h1, fun h => ?_⟩
  rw [h1] at h
  exact Except.noConfusion h

/-- Claim C5 as amended — the five failure kinds are checked in the stated
order, except that the version check only requires the first segment to begin
(after optional whitespace) with an optionally signed decimal integer in the
64-bit range: a negative version or trailing junk after the digits is
accepted, not rejected. -/
theorem parse_error_taxonomy (fn : List Char) :
    (hasSuffixGo fn sqlSuffix = false → parseMigrationFilename fn = .error .invalidFormat) ∧
    (hasSuffixGo fn sqlSuffix = true → (segsOf fn).length < 3 →
      parseMigrationFilename fn = .error .invalidFormat) ∧
    (hasSuffixGo fn sqlSuffix = true → ¬ (segsOf fn).length < 3 →
      goParseInt ((segsOf fn).headD []) = none →
      parseMigrationFilename fn = .error .invalidVersion) ∧
    (hasSuffixGo fn sqlSuffix = true → ¬ (segsOf fn).length < 3 →
      ∀ w, goParseInt ((segsOf fn).headD []) = some w →
      (segsOf fn).getLastD [] ≠ upChars → (segsOf fn).getLastD [] ≠ downChars →
      parseMigrationFilename fn = .error .invalidDirection) ∧
    (hasSuffixGo fn sqlSuffix = true → ¬ (segsOf fn).length < 3 →
      ∀ w, goParseInt ((segsOf fn).headD []) = some w →
      ((segsOf fn).getLastD [] = upChars ∨ (segsOf fn).getLastD [] = downChars) →
      joinGo '_' (((segsOf fn).drop 1).dropLast) = [] →
      parseMigrationFilename fn = .error .emptyName) := by
  refine ⟨?_, ?_, ?_, ?_, ?_⟩
  · intro h
    simp only [parseMigrationFilename, h, if_pos]
  · intro h1 h2
    simp only [parseMigrationFilename, h1, Bool.true_eq_false, if_false, if_pos h2]
  · intro h1 h2 h3
    simp only [parseMigrationFilename, h1, Bool.true_eq_false, if_false, if_neg h2, h3]
  · intro h1 h2 w h3 h4 h5
    simp only [parseMigrationFilename, h1, Bool.true_eq_false, if_false, if_neg h2, h3]
    rw [if_pos ⟨h4, h5⟩]
  · intro h1 h2 w h3 h4 h5
    have hdir : ¬ ((segsOf fn).getLastD [] ≠ upChars ∧ (segsOf fn).getLastD [] ≠ downChars) := by
      rcases h4 with h | h
      · exact fun hc => hc.1 h
      · exact fun hc => hc.2 h
    simp only [parseMigrationFilename, h1, Bool.true_eq_false, if_false, if_neg h2, h3,
      if_neg hdir, if_pos h5]

/-- Witness for the amended C5 at the filename abc_create_users_up.sql, whose
first segment has no integer prefix and which therefore fails with
InvalidVersion. -/
theorem parse_error_taxonomy_witness :
    parseMigrationFilename (("abc_create_users_up.sql").toList) =
      .error .invalidVersion :=
  (parse_error_taxonomy (("abc_create_users_up.sql").toList)).2.2.1 (by rfl)
    (by decide) (by rfl)

/-- Counterexample to claim C6 — the registry key for SQLite is the string
sqlite3, so resolution of the identifier sqlite fails rather than
succeeding.  (The CLI separately normalizes sqlite to sqlite3 before calling
the engine, but the registry itself does not accept sqlite.) -/
theorem getDialect_sqlite_counterexample :
    getDialect ("sqlite") = .error .unsupportedDialect ∧
    ∀ d, getDialect ("sqlite") ≠ .ok d := by
  have h1 : getDialect ("sqlite") = .error .unsupportedDialect := by rfl
  refine ⟨h1, fun d h => ?_⟩
  rw [h1] at h
  exact Except.noConfusion h

/-- Claim C6 as amended — dialect resolution succeeds for exactly the
identifiers postgres, mysql and sqlite3, and every other identifier fails
with the same UnsupportedDialect outcome; resolution is a pure function of
the identifier, so repeated calls in any order give the same results. -/
theorem getDialect_registry :
    (∃ d, getDialect ("postgres") = .ok d) ∧
    (∃ d, getDialect ("mysql") = .ok d) ∧
    (∃ d, getDialect ("sqlite3") = .ok d) ∧
    ∀ s : String, s ≠ "postgres" → s ≠ "mysql" → s ≠ "sqlite3" →
      getDialect s = .error .unsupportedDialect := by
  refine ⟨⟨_, rfl⟩, ⟨_, rfl⟩, ⟨_, rfl⟩, ?_⟩
  intro s h1 h2 h3
  simp only [getDialect, if_neg h1, if_neg h2, if_neg h3]

/-- Witness for the amended C6 at the unknown identifier oracle. -/
theorem getDialect_registry_witness :
    getDialect ("oracle") = .error .unsupportedDialect :=
  getDialect_registry.2.2.2 ("oracle") (by decide) (by decide) (by decide)

/-- A one-file directory listing used as the concrete failing input for the
loader name claim. -/
def demoDir1 : DirListing :=
  [((("001_create_users_up.sql").toList), (("CREATE TABLE users;").toList))]

/-- Claim C3 — the code contradicts it: loading 001_create_users_up.sql
produces a Migration whose name is the string 1 (fmt.Sprintf of the version
with the percent-d verb), not the parsed slug create_users, even though the
parser extracts exactly that slug and LoadMigrations then discards it. -/
theorem loader_discards_parsed_name :
    (loadMigrations [] demoDir1).map (fun m => m.name) = [("1").toList] ∧
    (loadMigrations [] demoDir1).map (fun m => m.name) ≠ [("create_users").toList] ∧
    parseMigrationFilename (("001_create_users_up.sql").toList) =
      .ok (1, ("create_users").toList, upChars) := by
  refine ⟨by rfl, by decide, by rfl⟩

/-! Properties of the loader. -/

theorem insertGroup_keys (v : Int) (dir c : List Char) (acc : List (Int × DirPair)) :
    (insertGroup acc v dir c).map Prod.fst =
      if v ∈ acc.map Prod.fst then acc.map Prod.fst else acc.map Prod.fst ++ [v] := by
  induction acc with
  | nil => simp [insertGroup]
  | cons we rest ih =>
    obtain ⟨w, e⟩ := we
    simp only [insertGroup]
    by_cases hw : w = v
    · subst hw
      simp
    · rw [if_neg hw]
      simp only [List.map_cons, ih]
      by_cases hv : v ∈ rest.map Prod.fst
      · simp [List.mem_cons, hv]
      · simp [List.mem_cons, hv, Ne.symm hw]

theorem groupFilesAux_keys_nodup :
    ∀ (files : DirListing) (acc : List (Int × DirPair)),
      (acc.map Prod.fst).Nodup → ((groupFilesAux acc files).map Prod.fst).Nodup := by
  intro files
  induction files with
  | nil => intro acc h; exact h
  | cons fc rest ih =>
    intro acc h
    simp only [groupFilesAux]
    split
    · split
      · exact ih acc h
      · next version nm direction heq =>
        refine ih _ ?_
        rw [insertGroup_keys]
        by_cases hv : version ∈ acc.map Prod.fst
        · rw [if_pos hv]; exact h
        · rw [if_neg hv]
          simp [List.nodup_append, h, hv]
    · exact ih acc h

theorem groupFiles_keys_nodup (files : DirListing) :
    ((groupFiles files).map Prod.fst).Nodup :=
  groupFilesAux_keys_nodup files [] (by simp)

theorem buildMigrations_versions (groups : List (Int × DirPair)) :
    (buildMigrations groups).map (fun m => m.version) = groups.map Prod.fst := by
  simp [buildMigrations, List.map_map]

theorem loadMigrations_perm (catalog : List Migration) (files : DirListing) :
    List.Perm (loadMigrations catalog files)
      (catalog ++ buildMigrations (groupFiles files)) :=
  List.perm_insertionSort migLE _

theorem loadMigrations_sorted (catalog : List Migration) (files : DirListing) :
    List.Sorted migLE (loadMigrations catalog files) :=
  List.sorted_insertionSort migLE _

/-- Counterexample to claim C8 — a second successful load of the same
directory duplicates every version: after loading a one-file directory twice
the catalog holds version 1 twice, so versions are neither unique nor
strictly ascending. -/
theorem load_twice_duplicate_versions :
    (loadMigrations (loadMigrations []
        [((("1_a_up.sql").toList), (("A").toList))])
        [((("1_a_up.sql").toList), (("A").toList))]).map (fun m => m.version) = [1, 1] ∧
    ¬ List.Pairwise (fun a b : Migration => a.version < b.version)
      (loadMigrations (loadMigrations []
        [((("1_a_up.sql").toList), (("A").toList))])
        [((("1_a_up.sql").toList), (("A").toList))]) := by
  refine ⟨by rfl, by decide⟩

/-- Claim C8 as amended — after a successful load into an empty catalog (the
first load on a freshly constructed Migrator), versions are unique and
strictly ascending, and a version whose directory has only one direction
file is still included, with the missing direction's SQL the empty string;
a further load on the same Migrator appends instead of replacing, so the
invariant is only guaranteed for the catalog built by the first load. -/
theorem load_fresh_catalog_invariant (files : DirListing) :
    List.Pairwise (fun a b : Migration => a.version < b.version) (loadMigrations [] files) ∧
    (∀ ve ∈ groupFiles files,
      ({ version := ve.1, name := intChars ve.1, upSQL := ve.2.1.getD [],
         downSQL := ve.2.2.getD [] } : Migration) ∈ loadMigrations [] files) ∧
    (∀ v u, (v, (some u, none)) ∈ groupFiles files →
      ∃ m, m ∈ loadMigrations [] files ∧ m.version = v ∧ m.upSQL = u ∧ m.downSQL = []) := by
  have hperm : List.Perm (loadMigrations [] files) (buildMigrations (groupFiles files)) := by
    have := loadMigrations_perm [] files
    simpa using this
  have hmem : ∀ ve ∈ groupFiles files,
      ({ version := ve.1, name := intChars ve.1, upSQL := ve.2.1.getD [],
         downSQL := ve.2.2.getD [] } : Migration) ∈ loadMigrations [] files := by
    intro ve hve
    refine hperm.symm.subset ?_
    exact List.mem_map_of_mem _ hve
  refine ⟨?_, hmem, ?_⟩
  · have hsorted : List.Pairwise migLE (loadMigrations [] files) :=
      loadMigrations_sorted [] files
    have hnodup : ((loadMigrations [] files).map (fun m => m.version)).Nodup := by
      rw [(hperm.map (fun m => m.version)).nodup_iff, buildMigrations_versions]
      exact groupFiles_keys_nodup files
    have hne : List.Pairwise (fun a b : Migration => a.version ≠ b.version)
        (loadMigrations [] files) := List.pairwise_map.mp hnodup
    exact (hsorted.and hne).imp fun h => lt_of_le_of_ne h.1 h.2
  · intro v u hvu
    exact ⟨_, hmem (v, (some u, none)) hvu, rfl, rfl, rfl⟩

/-- Witness for the amended C8 on a directory holding a lone up file for
version 7: the catalog contains a migration for version 7 whose down SQL is
empty. -/
theorem load_fresh_catalog_invariant_witness :
    ∃ m, m ∈ loadMigrations [] [((("7_solo_up.sql").toList), (("U7").toList))] ∧
      m.version = 7 ∧ m.upSQL = (("U7").toList) ∧ m.downSQL = [] :=
  (load_fresh_catalog_invariant [((("7_solo_up.sql").toList), (("U7").toList))]).2.2
    7 (("U7").toList) (by decide)

/-- Claim C10 — LoadMigrations appends to the catalog rather than replacing
it: the loaded catalog is a version-sorted permutation of the old catalog
followed by the newly built migrations, nothing already loaded is ever
dropped, a double load from fresh is a permutation of two copies of the
single load, and every version is counted twice as often after the double
load. -/
theorem load_appends_catalog (files : DirListing) (catalog : List Migration) :
    (∀ m ∈ catalog, m ∈ loadMigrations catalog files) ∧
    List.Sorted migLE (loadMigrations catalog files) ∧
    List.Perm (loadMigrations catalog files)
      (catalog ++ buildMigrations (groupFiles files)) ∧
    List.Perm (loadMigrations (loadMigrations [] files) files)
      (loadMigrations [] files ++ loadMigrations [] files) ∧
    ∀ v : Int,
      (loadMigrations (loadMigrations [] files) files).countP
          (fun m => decide (m.version = v)) =
        2 * (loadMigrations [] files).countP (fun m => decide (m.version = v)) := by
  have hfresh : List.Perm (loadMigrations [] files) (buildMigrations (groupFiles files)) := by
    have := loadMigrations_perm [] files
    simpa using this
  have hdouble : List.Perm (loadMigrations (loadMigrations [] files) files)
      (loadMigrations [] files ++ loadMigrations [] files) :=
    (loadMigrations_perm (loadMigrations [] files) files).trans
      (List.Perm.append_left (loadMigrations [] files) hfresh.symm)
  refine ⟨?_, loadMigrations_sorted catalog files, loadMigrations_perm catalog files,
    hdouble, ?_⟩
  · intro m hm
    exact (loadMigrations_perm catalog files).symm.subset (List.mem_append_left _ hm)
  · intro v
    rw [hdouble.countP_eq, List.countP_append]
    omega

/-- Witness for C10 — a migration already in the catalog survives a load. -/
theorem load_appends_catalog_witness :
    ({ version := 5, name := ('5' :: []), upSQL := [], downSQL := [] } : Migration) ∈
      loadMigrations [{ version := 5, name := ('5' :: []), upSQL := [], downSQL := [] }]
        [((("1_a_up.sql").toList), (("A").toList))] :=
  (load_appends_catalog [((("1_a_up.sql").toList), (("A").toList))]
      [{ version := 5, name := ('5' :: []), upSQL := [], downSQL := [] }]).1
    _ (by decide)

/-! Properties of the applied-table lookup. -/

theorem lookupA_append_isSome (l r : List (Int × Nat)) (v : Int) :
    (lookupA (l ++ r) v).isSome = ((lookupA l v).isSome || (lookupA r v).isSome) := by
  induction l with
  | nil => simp [lookupA]
  | cons e rest ih =>
    obtain ⟨a, b⟩ := e
    by_cases h : a = v <;> simp [lookupA, h, ih]

theorem lookupA_isSome_iff_mem_keys (rows : List (Int × Nat)) (v : Int) :
    (lookupA rows v).isSome = true ↔ v ∈ rows.map Prod.fst := by
  induction rows with
  | nil => simp [lookupA]
  | cons e rest ih =>
    obtain ⟨a, b⟩ := e
    simp only [lookupA, List.map_cons, List.mem_cons]
    by_cases h : a = v
    · subst h
      simp
    · rw [if_neg h, ih]
      constructor
      · intro h1
        exact Or.inr h1
      · rintro (h1 | h1)
        · exact absurd h1.symm h
        · exact h1

/-! Properties of the forward runner. -/

theorem migrateFrom_ok_versions (execOk : List Char → Bool) (a0 : List (Int × Nat)) :
    ∀ (migs : List Migration) (db db' : DBState), (∃ w, db.applied = a0 ++ w) →
      migrateFrom execOk a0 migs db = .ok db' →
      ∀ v : Int, (lookupA db'.applied v).isSome ↔
        ((lookupA db.applied v).isSome ∨ v ∈ migs.map (fun m => m.version)) := by
  intro migs
  induction migs with
  | nil =>
    intro db db' _ h v
    simp only [migrateFrom] at h
    injection h with h
    subst h
    simp
  | cons mig rest ih =>
    intro db db' hw h v
    simp only [migrateFrom] at h
    by_cases hsk : (lookupA a0 mig.version).isSome = true
    · rw [if_pos hsk] at h
      rw [ih db db' hw h v]
      simp only [List.map_cons, List.mem_cons]
      constructor
      · rintro (h1 | h1)
        · exact Or.inl h1
        · exact Or.inr (Or.inr h1)
      · rintro (h1 | h1 | h1)
        · exact Or.inl h1
        · subst h1
          obtain ⟨w, hww⟩ := hw
          left
          rw [hww, lookupA_append_isSome, hsk]
          rfl
        · exact Or.inr h1
    · rw [if_neg hsk] at h
      cases hex : execOk mig.upSQL with
      | false =>
        rw [if_pos hex] at h
        exact Except.noConfusion h
      | true =>
        have hnf : ¬ (execOk mig.upSQL = false) := by
          rw [hex]
          exact fun hc => Bool.noConfusion hc
        rw [if_neg hnf] at h
        by_cases hdup : (lookupA db.applied mig.version).isSome = true
        · rw [if_pos hdup] at h
          exact Except.noConfusion h
        · rw [if_neg hdup] at h
          obtain ⟨w, hww⟩ := hw
          have hrec := ih _ db'
            ⟨w ++ [(mig.version, db.clock)], by simp [hww, List.append_assoc]⟩ h v
          rw [hrec]
          simp only [lookupA_append_isSome, List.map_cons, List.mem_cons]
          have hsingle : (lookupA [(mig.version, db.clock)] v).isSome = true ↔
              v = mig.version := by
            by_cases hv : mig.version = v
            · subst hv
              simp [lookupA]
            · simp only [lookupA, if_neg hv, Option.isSome_none, Bool.false_eq_true,
                false_iff]
              exact fun hc => hv hc.symm
          constructor
          · rintro (h1 | h1)
            · rcases Bool.or_eq_true_iff.mp h1 with h2 | h2
              · exact Or.inl h2
              · exact Or.inr (Or.inl (hsingle.mp h2))
            · exact Or.inr (Or.inr h1)
          · rintro (h1 | h1 | h1)
            · exact Or.inl (by rw [Bool.or_eq_true_iff]; exact Or.inl h1)
            · exact Or.inl (by rw [Bool.or_eq_true_iff]; exact Or.inr (hsingle.mpr h1))
            · exact Or.inr h1

theorem migrateFrom_skip_all (execOk : List Char → Bool) (a0 : List (Int × Nat)) :
    ∀ (migs : List Migration) (db : DBState),
      (∀ m ∈ migs, (lookupA a0 m.version).isSome = true) →
      migrateFrom execOk a0 migs db = .ok db := by
  intro migs
  induction migs with
  | nil => intro db _; rfl
  | cons mig rest ih =>
    intro db h
    simp only [migrateFrom]
    rw [if_pos (h mig (List.mem_cons_self mig rest))]
    exact ih db fun m hm => h m (List.mem_cons_of_mem _ hm)

theorem migrateFrom_append_ok (execOk : List Char → Bool) (a0 : List (Int × Nat)) :
    ∀ (pre rest : List Migration) (db dbm : DBState),
      migrateFrom execOk a0 pre db = .ok dbm →
      migrateFrom execOk a0 (pre ++ rest) db = migrateFrom execOk a0 rest dbm := by
  intro pre
  induction pre with
  | nil =>
    intro rest db dbm h
    simp only [migrateFrom] at h
    injection h with h
    subst h
    rfl
  | cons mig pre' ih =>
    intro rest db dbm h
    simp only [List.cons_append, migrateFrom] at h ⊢
    by_cases hsk : (lookupA a0 mig.version).isSome = true
    · rw [if_pos hsk] at h ⊢
      exact ih rest db dbm h
    · rw [if_neg hsk] at h ⊢
      cases hex : execOk mig.upSQL with
      | false =>
        rw [if_pos hex] at h
        exact Except.noConfusion h
      | true =>
        have hnf : ¬ (execOk mig.upSQL = false) := by
          rw [hex]
          exact fun hc => Bool.noConfusion hc
        rw [if_neg hnf] at h
        rw [if_neg (by decide : ¬ (true = false))]
        by_cases hdup : (lookupA db.applied mig.version).isSome = true
        · rw [if_pos hdup] at h
          exact Except.noConfusion h
        · rw [if_neg hdup] at h ⊢
          exact ih rest _ dbm h

/-- Claim C7 — applyAll is idempotent: a successful run makes the applied set
exactly the old applied set together with the catalog versions, and running
applyAll again from the resulting state returns it unchanged — no up SQL is
executed and no row is inserted, because every version is skipped. -/
theorem migrate_idempotent (execOk : List Char → Bool) (dbType : String)
    (migs : List Migration) (db db2 : DBState)
    (hdia : ∃ d, getDialect dbType = .ok d)
    (h : runMigrate execOk dbType migs db = .ok db2) :
    (∀ v : Int, (lookupA db2.applied v).isSome ↔
      ((lookupA db.applied v).isSome ∨ v ∈ migs.map (fun m => m.version))) ∧
    runMigrate execOk dbType migs db2 = .ok db2 := by
  obtain ⟨d, hd⟩ := hdia
  simp only [runMigrate, hd] at h ⊢
  have hm : migrateFrom execOk db.applied migs db = .ok db2 := by
    cases hmm : migrateFrom execOk db.applied migs db with
    | error e =>
      rw [hmm] at h
      obtain ⟨v0, db0⟩ := e
      exact MigrateResult.noConfusion h
    | ok dbx =>
      rw [hmm] at h
      injection h with h
      rw [h]
  have hver := migrateFrom_ok_versions execOk db.applied migs db db2
    ⟨[], by simp⟩ hm
  refine ⟨hver, ?_⟩
  have hall : ∀ m ∈ migs, (lookupA db2.applied m.version).isSome = true :=
    fun m hm2 => (hver m.version).mpr (Or.inr (List.mem_map_of_mem _ hm2))
  rw [migrateFrom_skip_all execOk db2.applied migs db2 hall]

/-- Two demonstration migrations used by concrete witnesses. -/
def demoMig1 : Migration :=
  { version := 1, name := ('1' :: []), upSQL := ("CREATE TABLE users;").toList,
    downSQL := ("DROP TABLE users;").toList }

/-- Second demonstration migration. -/
def demoMig2 : Migration :=
  { version := 2, name := ('2' :: []),
    upSQL := ("ALTER TABLE users ADD COLUMN email TEXT;").toList,
    downSQL := ("ALTER TABLE users DROP COLUMN email;").toList }

/-- The empty database state. -/
def demoDB0 : DBState := { execLog := [], applied := [], clock := 0 }

/-- The state after applying the two demonstration migrations from the empty
state. -/
def demoDB2 : DBState :=
  { execLog := [demoMig1.upSQL, demoMig2.upSQL], applied := [(1, 0), (2, 1)], clock := 2 }

/-- Witness for C7 on the catalog of versions one and two: after a successful
applyAll, a second applyAll is a no-op returning the state unchanged. -/
theorem migrate_idempotent_witness :
    runMigrate (fun _ => true) ("postgres") [demoMig1, demoMig2] demoDB2 = .ok demoDB2 :=
  (migrate_idempotent (fun _ => true) ("postgres") [demoMig1, demoMig2] demoDB0 demoDB2
    ⟨_, rfl⟩ (by rfl)).2

/-- Claim C2 — if every migration before mig succeeds and mig's up SQL fails
while mig is pending, the whole run surfaces the failure with mig's version,
the database is left exactly in the state reached after the earlier
migrations (the failing step's transaction contributed nothing), later
catalog entries are never attempted (the outcome does not depend on post at
all), and every earlier catalog migration is applied in that state. -/
theorem migrate_up_failure (execOk : List Char → Bool) (dbType : String)
    (pre post : List Migration) (mig : Migration) (db dbm : DBState)
    (hdia : ∃ d, getDialect dbType = .ok d)
    (hpre : runMigrate execOk dbType pre db = .ok dbm)
    (hpend : lookupA db.applied mig.version = none)
    (hfail : execOk mig.upSQL = false) :
    runMigrate execOk dbType (pre ++ mig :: post) db = .applyFailed mig.version dbm ∧
    ∀ m ∈ pre, (lookupA dbm.applied m.version).isSome = true := by
  obtain ⟨d, hd⟩ := hdia
  simp only [runMigrate, hd] at hpre ⊢
  have hm : migrateFrom execOk db.applied pre db = .ok dbm := by
    cases hmm : migrateFrom execOk db.applied pre db with
    | error e =>
      rw [hmm] at hpre
      obtain ⟨v0, db0⟩ := e
      exact MigrateResult.noConfusion hpre
    | ok dbx =>
      rw [hmm] at hpre
      injection hpre with hpre
      rw [hpre]
  have hver := migrateFrom_ok_versions execOk db.applied pre db dbm ⟨[], by simp⟩ hm
  refine ⟨?_, fun m hm2 => (hver m.version).mpr (Or.inr (List.mem_map_of_mem _ hm2))⟩
  rw [migrateFrom_append_ok execOk db.applied pre (mig :: post) db dbm hm]
  have hstep : migrateFrom execOk db.applied (mig :: post) dbm =
      .error (mig.version, dbm) := by
    simp only [migrateFrom, hpend, Option.isSome_none, Bool.false_eq_true, if_false]
    rw [if_pos hfail]
  rw [hstep]

/-- A migration whose up SQL the demonstration oracle rejects. -/
def demoBad : Migration :=
  { version := 2, name := ('2' :: []), upSQL := ("BOOM").toList, downSQL := [] }

/-- Demonstration oracle: every SQL body succeeds except the string BOOM. -/
def demoEk : List Char → Bool := fun s => ! (s == ("BOOM").toList)

/-- Witness for C2: version 1 applies and commits, version 2's up SQL fails,
the surfaced error names version 2, and the database keeps exactly version
1's effects. -/
theorem migrate_up_failure_witness :
    runMigrate demoEk ("postgres") [demoMig1, demoBad] demoDB0 =
      .applyFailed 2 { execLog := [demoMig1.upSQL], applied := [(1, 0)], clock := 1 } :=
  (migrate_up_failure demoEk ("postgres") [demoMig1] [] demoBad demoDB0
    { execLog := [demoMig1.upSQL], applied := [(1, 0)], clock := 1 }
    ⟨_, rfl⟩ (by rfl) (by rfl) (by rfl)).1

/-! Properties of the reverse runner (modelled from the spec). -/

theorem rollbackGo_all_ok (execOk : List Char → Bool) :
    ∀ (sel : List (Migration × Nat)) (db : DBState),
      (∀ p ∈ sel, execOk p.1.downSQL = true) →
      rollbackGo execOk sel db = .ok
        { execLog := db.execLog ++ sel.map (fun p => p.1.downSQL)
          applied := sel.foldl (fun acc p => eraseA acc p.1.version) db.applied
          clock := db.clock } := by
  intro sel
  induction sel with
  | nil =>
    intro db _
    simp [rollbackGo]
  | cons p rest ih =>
    intro db h
    have hp := h p (List.mem_cons_self p rest)
    simp only [rollbackGo, hp, Bool.true_eq_false, if_false]
    rw [ih _ fun q hq => h q (List.mem_cons_of_mem _ hq)]
    simp [List.append_assoc]

theorem rollbackGo_first_fail (execOk : List Char → Bool) :
    ∀ (a : List (Migration × Nat)) (p : Migration × Nat) (b : List (Migration × Nat))
      (db : DBState),
      (∀ q ∈ a, execOk q.1.downSQL = true) → execOk p.1.downSQL = false →
      rollbackGo execOk (a ++ p :: b) db = .error p.1.version := by
  intro a
  induction a with
  | nil =>
    intro p b db _ hp
    simp [rollbackGo, hp]
  | cons q rest ih =>
    intro p b db ha hp
    have hq := ha q (List.mem_cons_self q rest)
    simp only [List.cons_append, rollbackGo, hq, Bool.true_eq_false, if_false]
    exact ih p b _ (fun x hx => ha x (List.mem_cons_of_mem _ hx)) hp

theorem rollbackGo_error_mem (execOk : List Char → Bool) :
    ∀ (sel : List (Migration × Nat)) (db : DBState) (v : Int),
      rollbackGo execOk sel db = .error v →
      ∃ p, p ∈ sel ∧ p.1.version = v ∧ execOk p.1.downSQL = false := by
  intro sel
  induction sel with
  | nil =>
    intro db v h
    exact Except.noConfusion h
  | cons p rest ih =>
    intro db v h
    cases hex : execOk p.1.downSQL with
    | false =>
      rw [rollbackGo, if_pos hex] at h
      injection h with h
      exact ⟨p, List.mem_cons_self p rest, h, hex⟩
    | true =>
      rw [rollbackGo, if_neg (by rw [hex]; exact fun hc => Bool.noConfusion hc)] at h
      obtain ⟨q, hq, hqv, hqe⟩ := ih _ v h
      exact ⟨q, List.mem_cons_of_mem _ hq, hqv, hqe⟩

theorem foldl_eraseA_filter :
    ∀ (sel : List (Migration × Nat)) (rows : List (Int × Nat)),
      sel.foldl (fun acc p => eraseA acc p.1.version) rows =
        rows.filter (fun r => decide (r.1 ∉ sel.map (fun p => p.1.version))) := by
  intro sel
  induction sel with
  | nil =>
    intro rows
    simp
  | cons p rest ih =>
    intro rows
    simp only [List.foldl_cons, ih]
    unfold eraseA
    rw [List.filter_filter]
    apply List.filter_congr
    intro r _
    by_cases h1 : r.1 = p.1.version <;>
      by_cases h2 : r.1 ∈ rest.map (fun q => q.1.version) <;>
        simp [h1, h2]

theorem rollbackCandidates_sorted (catalog : List Migration)
    (applied : List (Int × Nat)) :
    List.Sorted byTimeDesc (rollbackCandidates catalog applied) :=
  List.sorted_insertionSort byTimeDesc _

theorem rollbackCandidates_mem (catalog : List Migration) (applied : List (Int × Nat))
    (p : Migration × Nat) :
    p ∈ rollbackCandidates catalog applied ↔
      p.1 ∈ catalog ∧ lookupA applied p.1.version = some p.2 := by
  unfold rollbackCandidates
  rw [(List.perm_insertionSort byTimeDesc _).mem_iff, List.mem_filterMap]
  constructor
  · rintro ⟨m, hm, hf⟩
    obtain ⟨t, ht, hpt⟩ := Option.map_eq_some'.mp hf
    obtain ⟨m2, t2⟩ := p
    injection hpt with hp1 hp2
    subst hp1
    subst hp2
    exact ⟨hm, ht⟩
  · rintro ⟨h1, h2⟩
    refine ⟨p.1, h1, ?_⟩
    rw [h2]
    rfl

theorem filterMap_lookup_versions (catalog : List Migration)
    (applied : List (Int × Nat)) :
    (catalog.filterMap fun m => (lookupA applied m.version).map fun t => (m, t)).map
        (fun p => p.1.version) =
      (catalog.filter fun m => (lookupA applied m.version).isSome).map
        (fun m => m.version) := by
  induction catalog with
  | nil => rfl
  | cons m rest ih =>
    cases hl : lookupA applied m.version with
    | none => simp [List.filterMap_cons, List.filter_cons, hl, ih]
    | some t => simp [List.filterMap_cons, List.filter_cons, hl, ih]

theorem rollbackCandidates_length (catalog : List Migration)
    (applied : List (Int × Nat))
    (hcat : (catalog.map (fun m => m.version)).Nodup)
    (hcov : ∀ r ∈ applied, r.1 ∈ catalog.map (fun m => m.version))
    (hkeys : (applied.map Prod.fst).Nodup) :
    (rollbackCandidates catalog applied).length = applied.length := by
  have hp : List.Perm (rollbackCandidates catalog applied)
      (catalog.filterMap fun m => (lookupA applied m.version).map fun t => (m, t)) :=
    List.perm_insertionSort byTimeDesc _
  have h1 : List.Perm ((rollbackCandidates catalog applied).map (fun p => p.1.version))
      ((catalog.filter fun m => (lookupA applied m.version).isSome).map
        (fun m => m.version)) := by
    rw [← filterMap_lookup_versions catalog applied]
    exact hp.map _
  have hWsub : ((catalog.filter fun m => (lookupA applied m.version).isSome).map
      (fun m => m.version)).Sublist (catalog.map (fun m => m.version)) :=
    (List.filter_sublist catalog).map _
  have hWnodup := hcat.sublist hWsub
  have hmemW : ∀ v, v ∈ ((catalog.filter fun m => (lookupA applied m.version).isSome).map
      (fun m => m.version)) ↔ v ∈ applied.map Prod.fst := by
    intro v
    constructor
    · intro hvW
      obtain ⟨m, hmf, hmv⟩ := List.mem_map.mp hvW
      obtain ⟨hm, hsome⟩ := List.mem_filter.mp hmf
      rw [← hmv]
      exact (lookupA_isSome_iff_mem_keys applied m.version).mp hsome
    · intro hv
      have hsome := (lookupA_isSome_iff_mem_keys applied v).mpr hv
      obtain ⟨r, hr, hrv⟩ := List.mem_map.mp hv
      have hvc : v ∈ catalog.map (fun m => m.version) := by
        rw [← hrv]
        exact hcov r hr
      obtain ⟨m, hm, hmv⟩ := List.mem_map.mp hvc
      apply List.mem_map.mpr
      refine ⟨m, List.mem_filter.mpr ⟨hm, ?_⟩, hmv⟩
      rw [hmv]
      exact hsome
  have hperm : List.Perm ((catalog.filter fun m => (lookupA applied m.version).isSome).map
      (fun m => m.version)) (applied.map Prod.fst) :=
    (List.perm_ext_iff_of_nodup hWnodup hkeys).mpr hmemW
  calc (rollbackCandidates catalog applied).length
      = ((rollbackCandidates catalog applied).map (fun p => p.1.version)).length :=
        (List.length_map _ _).symm
    _ = ((catalog.filter fun m => (lookupA applied m.version).isSome).map
        (fun m => m.version)).length := h1.length_eq
    _ = (applied.map Prod.fst).length := hperm.length_eq
    _ = applied.length := List.length_map _ _

/-- Claim C1 — rollback(steps) clamps steps to at least one and to the number
of rollback candidates (which equals the number of applied migrations
whenever the catalog covers the applied set with unique versions), selects
that many migrations in descending applied-at order, and in one transaction
executes each selected down SQL and deletes its applied record; if any
selected step fails, the whole batch is discarded and the error carries the
first failing version. -/
theorem rollback_clamps_and_batches (execOk : List Char → Bool) (steps : Int)
    (catalog : List Migration) (db : DBState) (hne : db.applied ≠ []) :
    List.Sorted byTimeDesc (rollbackCandidates catalog db.applied) ∧
    (selectedRollbacks steps catalog db.applied).length =
      min (max steps 1).toNat (rollbackCandidates catalog db.applied).length ∧
    ((catalog.map (fun m => m.version)).Nodup →
      (∀ r ∈ db.applied, r.1 ∈ catalog.map (fun m => m.version)) →
      (db.applied.map Prod.fst).Nodup →
      (rollbackCandidates catalog db.applied).length = db.applied.length) ∧
    ((∀ p ∈ selectedRollbacks steps catalog db.applied, execOk p.1.downSQL = true) →
      rollback execOk steps catalog db = .ok
        { execLog := db.execLog ++
            (selectedRollbacks steps catalog db.applied).map (fun p => p.1.downSQL)
          applied := db.applied.filter (fun r => decide (r.1 ∉
            (selectedRollbacks steps catalog db.applied).map (fun p => p.1.version)))
          clock := db.clock }) ∧
    (∀ a p b, selectedRollbacks steps catalog db.applied = a ++ p :: b →
      (∀ q ∈ a, execOk q.1.downSQL = true) → execOk p.1.downSQL = false →
      rollback execOk steps catalog db = .error (.stepFailed p.1.version)) := by
  refine ⟨rollbackCandidates_sorted catalog db.applied, ?_,
    rollbackCandidates_length catalog db.applied, ?_, ?_⟩
  · unfold selectedRollbacks
    rw [List.length_take]
    omega
  · intro hok
    unfold rollback
    rw [if_neg hne, rollbackGo_all_ok execOk _ db hok, foldl_eraseA_filter]
  · intro a p b hsel ha hp
    unfold rollback
    rw [if_neg hne, hsel, rollbackGo_first_fail execOk a p b db ha hp]

/-- A database state with the two demonstration migrations applied, used by
the rollback witnesses. -/
def demoRbDB : DBState := { execLog := [], applied := [(1, 0), (2, 1)], clock := 2 }

/-- Witness for C1: rollback(5) over the two-entry catalog clamps to two
steps and undoes both migrations, most recently applied first, leaving the
applied table empty. -/
theorem rollback_clamps_and_batches_witness :
    rollback (fun _ => true) 5 [demoMig1, demoMig2] demoRbDB = .ok
      { execLog := [demoMig2.downSQL, demoMig1.downSQL], applied := [], clock := 2 } :=
  (rollback_clamps_and_batches (fun _ => true) 5 [demoMig1, demoMig2] demoRbDB
    (by decide)).2.2.2.1 (fun p _ => rfl)

/-- Claim C9 — an empty applied set fails with NothingToRollback; with a
nonempty applied set an empty catalog is legal and rolls back nothing,
returning the state unchanged; and a step error always names a catalog
migration whose down SQL failed — an applied version absent from the catalog
never causes a failure. -/
theorem rollback_empty_catalog (execOk : List Char → Bool) (steps : Int)
    (catalog : List Migration) (db : DBState) :
    (db.applied = [] → rollback execOk steps catalog db = .error .nothingToRollback) ∧
    (db.applied ≠ [] → rollback execOk steps [] db = .ok db) ∧
    (∀ v, rollback execOk steps catalog db = .error (.stepFailed v) →
      ∃ m, m ∈ catalog ∧ m.version = v ∧ execOk m.downSQL = false) := by
  refine ⟨?_, ?_, ?_⟩
  · intro h
    unfold rollback
    rw [if_pos h]
  · intro h
    unfold rollback
    rw [if_neg h]
    have hc : rollbackCandidates [] db.applied = [] := rfl
    have hsel : selectedRollbacks steps [] db.applied = [] := by
      unfold selectedRollbacks
      rw [hc]
      simp
    rw [hsel]
    rfl
  · intro v h
    unfold rollback at h
    by_cases hne : db.applied = []
    · rw [if_pos hne] at h
      injection h with h
      exact RollbackError.noConfusion h
    · rw [if_neg hne] at h
      cases hg : rollbackGo execOk (selectedRollbacks steps catalog db.applied) db with
      | ok dbx =>
        rw [hg] at h
        exact Except.noConfusion h
      | error v0 =>
        rw [hg] at h
        injection h with h
        injection h with h
        subst h
        obtain ⟨p, hpmem, hpv, hpe⟩ := rollbackGo_error_mem execOk _ db v0 hg
        have hpc : p ∈ rollbackCandidates catalog db.applied :=
          List.take_subset _ _ hpmem
        obtain ⟨hcat, _⟩ := (rollbackCandidates_mem catalog db.applied p).mp hpc
        exact ⟨p.1, hcat, hpv, hpe⟩

/-- Witness for C9: with one applied version and an empty catalog, rollback
succeeds and changes nothing. -/
theorem rollback_empty_catalog_witness :
    rollback (fun _ => true) 1 []
        { execLog := [], applied := [(1, 0)], clock := 1 } =
      .ok { execLog := [], applied := [(1, 0)], clock := 1 } :=
  (rollback_empty_catalog (fun _ => true) 1 []
    { execLog := [], applied := [(1, 0)], clock := 1 }).2.1 (by decide)

end GoMigrate
